import Mathlib

/-!
Verification of the data-preparation and evaluation logic of the
`pytorch-20ng` notebook (20 Newsgroups text classification).

The notebook's reproducible logic is embedded shallowly:

* the corpus loader's header stripping (`find('\n\n')` / `t[i:]`),
* the GloVe embedding-file line parser (`line.split()`, float parsing),
* the tokenizer's id filter (`num_words` cap) and `pad_sequences`,
* the two `train_test_split` calls (shuffled test split, unshuffled
  validation split),
* the embedding-matrix construction loop,
* the `evaluate` function (loss/correct accumulation, the
  `loss /= len(validation_loader)` divisor, prediction vector), and
* the confusion matrix / per-class accuracy report.

Machine floats are modelled as rationals (`ℚ`); Python strings as
`List Char`; Python dicts as association lists or option-valued maps.
-/

namespace NG20

/-! ### Corpus loader: header stripping (notebook cell 7)

The notebook reads each message file and then runs

  i = t.find('\n\n')  # skip header
  if 0 < i:
      t = t[i:]

`find` returns the first index of the substring, or -1 when absent;
the -1 case is modelled by `none`. -/

/-- First index at which the two-character substring `"\n\n"` occurs in
the text, if any: the model of Python's `t.find('\n\n')` (with `-1`
rendered as `none`). -/
def findDoubleNewline : List Char → Option ℕ
  | [] => none
  | [_] => none
  | a :: b :: rest =>
    if a = '\n' ∧ b = '\n' then some 0
    else (findDoubleNewline (b :: rest)).map (· + 1)

/-- Header stripping applied to each corpus file: the model of
`i = t.find('\n\n'); if 0 < i: t = t[i:]` from cell 7.  Note `t[i:]`
keeps the separator itself. -/
def stripHeader (t : List Char) : List Char :=
  match findDoubleNewline t with
  | none => t
  | some i => if 0 < i then t.drop i else t

/-! ### Tokenizer / vectorizer (notebook cell 11)

`tokenizer = text.Tokenizer(num_words=MAX_NUM_WORDS)` assigns integer
ids (starting at 1) to tokens; `texts_to_sequences` emits, for each
token of a document, its id when the id is below `num_words`, and drops
the token otherwise (unknown tokens are likewise dropped).
`sequence.pad_sequences(..., maxlen=MAX_SEQUENCE_LENGTH)` uses the
library defaults `padding='pre', truncating='pre', value=0`: the
trailing `maxlen` entries are kept and the row is left-filled with 0. -/

/-- Encoding of one tokenized document: the model of
`Tokenizer.texts_to_sequences` for one text, over an arbitrary
token-to-id map `wi` (the fitted `word_index`) and the `num_words` cap.
A token is emitted iff it has an id and that id is below the cap. -/
def textToSequence (wi : List Char → Option ℕ) (numWords : ℕ)
    (tokens : List (List Char)) : List ℕ :=
  tokens.filterMap (fun w => (wi w).bind
    (fun i => if i < numWords then some i else none))

/-- One row of `sequence.pad_sequences` with the defaults
`padding='pre', truncating='pre', value=0`: keep the trailing `maxlen`
entries (`s[-maxlen:]`) and left-fill with zeros.  (The library errors
on `maxlen = 0`; the theorems below assume `0 < maxlen`.) -/
def padSequence (maxlen : ℕ) (s : List ℕ) : List ℕ :=
  let trunc := s.drop (s.length - maxlen)
  List.replicate (maxlen - trunc.length) 0 ++ trunc

/-! ### Theorems for the corpus loader claims -/

/-- C10: if the first blank-line separator occurs at position 0 (the
file begins with `"\n\n"`), the guard `0 < i` fails and the corpus
loader keeps the file content unchanged. -/
theorem c10_strip_noop_at_zero (rest : List Char) :
    stripHeader ('\n' :: '\n' :: rest) = '\n' :: '\n' :: rest := by
  simp [stripHeader, findDoubleNewline]

/-- C1 counterexample: the header-stripped form of
`"From: x\nSubject: y\n\nHello world"` is not `"Hello world"` (the code
keeps the blank-line separator: the result is `"\n\nHello world"`). -/
theorem c1_counterexample :
    stripHeader ("From: x\nSubject: y\n\nHello world".toList) ≠
      "Hello world".toList := by
  decide

/-- C1 (amended): whenever the blank-line separator occurs at index
`i`, the loader keeps exactly the suffix of the document from index `i`
on — everything strictly before the separator is dropped but the
separator itself is kept; in particular the example document yields
`"\n\nHello world"`, not `"Hello world"`. -/
theorem c1_header_strip (t : List Char) (i : ℕ)
    (h : findDoubleNewline t = some i) :
    stripHeader t = t.drop i ∧
      stripHeader ("From: x\nSubject: y\n\nHello world".toList) =
        "\n\nHello world".toList := by
  refine ⟨?_, by decide⟩
  unfold stripHeader
  rw [h]
  by_cases hi : 0 < i
  · simp [hi]
  · simp [hi, Nat.eq_zero_of_not_pos hi]

/-- Witness for `c1_header_strip` at the concrete document
`"a\n\nb"`, whose separator index is 1. -/
theorem c1_header_strip_witness :
    findDoubleNewline ("a\n\nb".toList) = some 1 ∧
      stripHeader ("a\n\nb".toList) = ("a\n\nb".toList).drop 1 :=
  ⟨by decide, (c1_header_strip ("a\n\nb".toList) 1 (by decide)).1⟩

/-! ### Theorems for the vectorizer claims -/

/-- C4: every padded row has length exactly `maxlen` (for the positive
`maxlen` the notebook uses), over-long id sequences keep their trailing
`maxlen` entries, and short ones are left-padded with 0: with
`maxlen = 5`, `[1,2,3,4,5,6,7]` becomes `[3,4,5,6,7]` and `[1,2]`
becomes `[0,0,0,1,2]`. -/
theorem c4_pad_truncate :
    (∀ maxlen : ℕ, ∀ s : List ℕ, 0 < maxlen →
        (padSequence maxlen s).length = maxlen) ∧
      padSequence 5 [1, 2, 3, 4, 5, 6, 7] = [3, 4, 5, 6, 7] ∧
      padSequence 5 [1, 2] = [0, 0, 0, 1, 2] := by
  refine ⟨fun maxlen s _ => ?_, by decide, by decide⟩
  simp only [padSequence, List.length_append, List.length_replicate,
    List.length_drop]
  omega

/-- Witness for `c4_pad_truncate`: the universally quantified part at
`maxlen = 5` and the sequence `[9]`. -/
theorem c4_pad_truncate_witness :
    (0 < 5 ∧ (padSequence 5 [9]).length = 5) ∧
      padSequence 5 [1, 2] = [0, 0, 0, 1, 2] :=
  ⟨⟨by decide, c4_pad_truncate.1 5 [9] (by decide)⟩, c4_pad_truncate.2.2⟩

/-- C5: every id of an encoded and padded document is in
`[0, numWords)`: ids at or beyond the `num_words` cap are filtered out
during encoding and the padding sentinel 0 is below the (positive)
cap. -/
theorem c5_ids_below_cap (wi : List Char → Option ℕ) (numWords maxlen : ℕ)
    (tokens : List (List Char)) (h : 0 < numWords) :
    ∀ id ∈ padSequence maxlen (textToSequence wi numWords tokens),
      id < numWords := by
  intro id hid
  rcases List.mem_append.1 hid with hpad | htr
  · rw [List.eq_of_mem_replicate hpad]
    exact h
  · have hmem := List.mem_of_mem_drop htr
    rcases List.mem_filterMap.1 hmem with ⟨w, _, hw⟩
    rcases Option.bind_eq_some.1 hw with ⟨i, _, hii⟩
    by_cases hlt : i < numWords
    · simp only [if_pos hlt, Option.some.injEq] at hii
      omega
    · simp [if_neg hlt] at hii

/-- Witness for `c5_ids_below_cap` at a concrete vocabulary over the
two tokens `"a"` (id 1) and `"b"` (id 7), cap 3, pad length 4. -/
theorem c5_ids_below_cap_witness :
    (0 < 3) ∧
      ∀ id ∈ padSequence 4 (textToSequence
          (fun w => if w = ['a'] then some 1 else
            if w = ['b'] then some 7 else none) 3 [['a'], ['b'], ['c']]),
        id < 3 :=
  ⟨by decide,
    c5_ids_below_cap
      (fun w => if w = ['a'] then some 1 else
        if w = ['b'] then some 7 else none) 3 4 [['a'], ['b'], ['c']]
      (by decide)⟩

/-! ### GloVe embedding loader (notebook cell 5)

For every line of `glove.6B.100d.txt` the notebook runs

  values = line.split()
  word = values[0]
  coefs = np.asarray(values[1:], dtype='float32')
  embeddings_index[word] = coefs

`values[0]` on an empty split raises `IndexError`; `np.asarray` with
`dtype='float32'` raises `ValueError` when some field is not a float.
Both abort the whole load.  Notably, nothing checks the number of
fields. -/

/-- Errors that abort the embedding load: `values[0]` on an empty
split, and a field `np.asarray` cannot convert to a float. -/
inductive LoadError where
  | indexError : LoadError
  | valueError : LoadError
deriving DecidableEq

/-- Accumulator-based worker for whitespace splitting. -/
def splitWsAux : List Char → List Char → List (List Char)
  | [], acc => if acc = [] then [] else [acc.reverse]
  | c :: rest, acc =>
    if c.isWhitespace then
      if acc = [] then splitWsAux rest []
      else acc.reverse :: splitWsAux rest []
    else splitWsAux rest (c :: acc)

/-- Python's `line.split()`: split on runs of whitespace, producing no
empty fields. -/
def splitWs (l : List Char) : List (List Char) := splitWsAux l []

/-- Numeric value of a digit string, most significant digit first. -/
def digitsVal (l : List Char) : ℕ :=
  l.foldl (fun a c => 10 * a + (c.toNat - 48)) 0

/-- Split a character list at the first character satisfying `p`,
returning the part before it and, when it occurs, the part after it. -/
def splitAtP (p : Char → Bool) : List Char → List Char × Option (List Char)
  | [] => ([], none)
  | c :: rest =>
    if p c then ([], some rest)
    else
      let r := splitAtP p rest
      (c :: r.1, r.2)

/-- Float parsing for one embedding field, the model of
`np.asarray(values[1:], dtype='float32')` on a single field: an
optional sign, decimal digits with an optional fractional part, and an
optional signed decimal exponent, valued exactly in `ℚ`.  Returns
`none` when the field is not a float (the `ValueError` case). -/
def parseFloat (s : List Char) : Option ℚ :=
  let signed : List Char → ℚ × List Char := fun l =>
    match l with
    | '-' :: r => (-1, r)
    | '+' :: r => (1, r)
    | r => (1, r)
  let (sign, s1) := signed s
  let (mant, expPart) := splitAtP (fun c => c = 'e' || c = 'E') s1
  let (ip, fpOpt) := splitAtP (fun c => c = '.') mant
  let fp := fpOpt.getD []
  if ip.all Char.isDigit ∧ fp.all Char.isDigit ∧ (ip ≠ [] ∨ fp ≠ []) then
    let mantissa : ℚ :=
      sign * ((digitsVal ip : ℚ) + (digitsVal fp : ℚ) / (10 : ℚ) ^ fp.length)
    match expPart with
    | none => some mantissa
    | some e =>
      let (esign, e1) := signed e
      if e1 ≠ [] ∧ e1.all Char.isDigit then
        some (mantissa * (10 : ℚ) ^ ((if esign = -1 then (-1 : ℤ) else 1) *
          (digitsVal e1 : ℤ)))
      else none
  else none

/-- All-or-nothing float conversion of the vector fields: the model of
`np.asarray(values[1:], dtype='float32')`, which raises as soon as one
field fails to parse. -/
def parseFloats : List (List Char) → Option (List ℚ)
  | [] => some []
  | f :: rest =>
    match parseFloat f with
    | none => none
    | some x => (parseFloats rest).map (x :: ·)

/-- Processing of one line of the embedding file: split on whitespace,
take the first field as the token (`IndexError` when there is none) and
convert the remaining fields to floats (`ValueError` when one is not a
float).  No field-count check is performed. -/
def parseLine (line : List Char) :
    Except LoadError (List Char × List ℚ) :=
  match splitWs line with
  | [] => .error .indexError
  | w :: rest =>
    match parseFloats rest with
    | none => .error .valueError
    | some coefs => .ok (w, coefs)

/-- The embedding loading loop over the file's lines: each parsed entry
is stored (in order; the Python dict keeps the last occurrence of a
repeated token) and the first failing line aborts the whole load. -/
def loadEmbeddings : List (List Char) →
    Except LoadError (List (List Char × List ℚ))
  | [] => .ok []
  | line :: rest =>
    match parseLine line with
    | .error e => .error e
    | .ok entry => (loadEmbeddings rest).map (entry :: ·)

/-- A parse result `none` for some field makes `parseFloats` fail. -/
theorem parseFloats_eq_none {fields : List (List Char)}
    (h : ∃ f ∈ fields, parseFloat f = none) : parseFloats fields = none := by
  induction fields with
  | nil => rcases h with ⟨f, hf, _⟩; cases hf
  | cons g rest ih =>
    rcases h with ⟨f, hf, hnone⟩
    rcases List.mem_cons.1 hf with rfl | hmem
    · simp [parseFloats, hnone]
    · unfold parseFloats
      rw [ih ⟨f, hmem, hnone⟩]
      cases parseFloat g <;> simp

/-- C3 counterexample: the token-only line `"cat"` has a wrong field
count (no vector fields at all), yet the load succeeds and silently
stores the entry `("cat", [])` instead of raising a fatal parse
error. -/
theorem c3_counterexample :
    loadEmbeddings ["cat".toList] =
      Except.ok [("cat".toList, ([] : List ℚ))] := rfl

/-- C3 (amended): a line with a field that does not parse as a float is
a fatal `ValueError`, a line with no fields at all is a fatal
`IndexError`, and the first such line aborts the whole load; but the
field count itself is never checked — a line whose fields all parse is
stored with however many coefficients it has (e.g. the token-only line
`"cat"` is silently stored with an empty vector). -/
theorem c3_malformed_lines (line : List Char) (w : List Char)
    (fields : List (List Char)) (pre post : List (List Char))
    (hsplit : splitWs line = w :: fields)
    (hbad : ∃ f ∈ fields, parseFloat f = none)
    (hpre : ∀ l ∈ pre, ∃ entry, parseLine l = Except.ok entry) :
    parseLine line = Except.error LoadError.valueError ∧
      loadEmbeddings (pre ++ line :: post) =
        Except.error LoadError.valueError ∧
      (∀ l, splitWs l = [] → parseLine l = Except.error LoadError.indexError) ∧
      loadEmbeddings ["cat".toList] =
        Except.ok [("cat".toList, ([] : List ℚ))] := by
  have hpf := parseFloats_eq_none hbad
  have hline : parseLine line = Except.error LoadError.valueError := by
    unfold parseLine
    rw [hsplit]
    simp [hpf]
  refine ⟨hline, ?_, ?_, rfl⟩
  · induction pre with
    | nil => simp [loadEmbeddings, hline]
    | cons p rest ih =>
      rcases hpre p (List.mem_cons_self p rest) with ⟨entry, hp⟩
      have := ih (fun l hl => hpre l (List.mem_cons_of_mem p hl))
      simp [loadEmbeddings, hp, this, Except.map]
  · intro l hl
    unfold parseLine
    rw [hl]

/-- Witness for `c3_malformed_lines`: the line `"w q"` (field `"q"` is
not a float) after the well-formed line `"a 1.5"`. -/
theorem c3_malformed_lines_witness :
    parseLine ("w q".toList) = Except.error LoadError.valueError ∧
      loadEmbeddings ["a 1.5".toList, "w q".toList] =
        Except.error LoadError.valueError := by
  have h := c3_malformed_lines ("w q".toList) ("w".toList) [("q".toList)]
    [("a 1.5".toList)] [] rfl ⟨("q".toList), by decide, rfl⟩
    (by
      intro l hl
      rcases List.mem_singleton.1 hl with rfl
      exact ⟨_, rfl⟩)
  exact ⟨h.1, h.2.1⟩

/-! ### Dataset splitter (notebook cell 13)

The notebook calls scikit-learn's `train_test_split` twice:

  x_train, x_test, ... = train_test_split(data, labels, test_size=4000,
                                          shuffle=True, random_state=42)
  x_train, x_val, ...  = train_test_split(x_train, y_train,
                                          test_size=1000, shuffle=False)

With `shuffle=True` the splitter draws a seeded pseudo-random
permutation of the indices; the first `test_size` permuted indices form
the test set and the rest (in permuted order) the training set.  With
`shuffle=False` the first `n - test_size` rows form the training set
and the trailing `test_size` rows the test (here: validation) set. -/

/-- Selection of the rows of `data` at the positions `idx`, in that
order (NumPy fancy indexing `data[idx]`; out-of-range positions, which
NumPy would reject, are dropped). -/
def applyIndices (data : List α) (idx : List ℕ) : List α :=
  idx.filterMap (fun i => data.get? i)

/-- `train_test_split(..., shuffle=True)` given the permutation `perm`
drawn from the seeded generator: the first `testSize` permuted indices
select the test rows, the remaining permuted indices the train rows.
Returns `(train, test)`. -/
def trainTestSplitShuffle (perm : List ℕ) (data : List α) (testSize : ℕ) :
    List α × List α :=
  (applyIndices data (perm.drop testSize), applyIndices data (perm.take testSize))

/-- `train_test_split(..., shuffle=False)`: the first
`length - testSize` rows are the train set and the trailing `testSize`
rows the test set.  Returns `(train, test)`. -/
def trainTestSplitNoShuffle (data : List α) (testSize : ℕ) :
    List α × List α :=
  (data.take (data.length - testSize), data.drop (data.length - testSize))

/-- The notebook's two-stage split: a shuffled test split followed by
an unshuffled validation split of the remaining training data.  Returns
`(train, validation, test)`. -/
def splitPipeline (perm : List ℕ) (data : List α) (testSize valSize : ℕ) :
    List α × List α × List α :=
  let s1 := trainTestSplitShuffle perm data testSize
  let s2 := trainTestSplitNoShuffle s1.1 valSize
  (s2.1, s2.2, s1.2)

/-- Modelled from the spec: the seeded pseudo-random number generator
behind `random_state=42` (NumPy's generator is not part of the
notebook's code); a linear congruential step suffices for a
deterministic source of pseudo-random values. -/
def lcg (x : ℕ) : ℕ := (1103515245 * x + 12345) % 2 ^ 31

/-- Insertion of `a` after the first `n` elements of `l` (at the end
when `n` exceeds the length). -/
def insertAt (n : ℕ) (a : α) : List α → List α
  | l =>
    match n, l with
    | 0, l => a :: l
    | _ + 1, [] => [a]
    | n + 1, b :: l => b :: insertAt n a l

/-- Modelled from the spec: the seeded shuffle used by
`train_test_split(..., shuffle=True, random_state=seed)` — NumPy's
`RandomState(seed).permutation(n)` is not part of the notebook's code,
so it is modelled as a deterministic, seed-driven permutation of
`range n`: each index is inserted at a pseudo-random position. -/
def seededShuffle (seed : ℕ) : ℕ → List ℕ
  | 0 => []
  | n + 1 =>
    let rest := seededShuffle seed n
    insertAt (lcg (seed + n) % (rest.length + 1)) n rest

/-- The full seeded splitter: the permutation is a function of the seed
and the data length alone. -/
def splitPipelineSeeded (seed : ℕ) (data : List α) (testSize valSize : ℕ) :
    List α × List α × List α :=
  splitPipeline (seededShuffle seed data.length) data testSize valSize

/-- Inserting an element anywhere yields a permutation of consing it. -/
theorem insertAt_perm (n : ℕ) (a : α) (l : List α) :
    (insertAt n a l).Perm (a :: l) := by
  induction l generalizing n with
  | nil => cases n <;> simp [insertAt]
  | cons b l ih =>
    cases n with
    | zero => simp [insertAt]
    | succ n =>
      simp only [insertAt]
      exact ((ih n).cons b).trans (List.Perm.swap a b l)

/-- The seeded shuffle is a genuine permutation of `range n`. -/
theorem seededShuffle_perm (seed n : ℕ) :
    (seededShuffle seed n).Perm (List.range n) := by
  induction n with
  | zero => simp [seededShuffle]
  | succ n ih =>
    simp only [seededShuffle, List.range_succ]
    refine (insertAt_perm _ _ _).trans ?_
    exact (ih.cons n).trans (List.perm_append_singleton n (List.range n)).symm

/-- Reindexing by all of `range (length data)` returns `data`. -/
theorem applyIndices_range (data : List α) :
    applyIndices data (List.range data.length) = data := by
  induction data with
  | nil => rfl
  | cons a l ih =>
    have hfun : ((fun i => (a :: l).get? i) ∘ Nat.succ) = fun i => l.get? i := by
      funext i
      simp
    simp only [applyIndices, List.length_cons, List.range_succ_eq_map,
      List.filterMap_cons, List.get?_cons_zero, List.filterMap_map, hfun]
    simp only [applyIndices] at ih
    rw [ih]

/-- Reindexing by a permutation of all positions permutes the data. -/
theorem applyIndices_perm_of_perm (data : List α) (perm : List ℕ)
    (h : perm.Perm (List.range data.length)) :
    (applyIndices data perm).Perm data := by
  have := h.filterMap (fun i => data.get? i)
  rw [show (List.filterMap (fun i => data.get? i) (List.range data.length)) =
      applyIndices data (List.range data.length) from rfl,
    applyIndices_range] at this
  exact this

/-- C7: when the shuffled split's index permutation covers every
position exactly once (as the seeded generator guarantees), the three
splits use each input document exactly once — their concatenation is a
permutation of the input — and their sizes sum to the input size. -/
theorem c7_split_partition (perm : List ℕ) (data : List α)
    (testSize valSize : ℕ) (h : perm.Perm (List.range data.length)) :
    ((splitPipeline perm data testSize valSize).1 ++
        (splitPipeline perm data testSize valSize).2.1 ++
        (splitPipeline perm data testSize valSize).2.2).Perm data ∧
      (splitPipeline perm data testSize valSize).1.length +
        (splitPipeline perm data testSize valSize).2.1.length +
        (splitPipeline perm data testSize valSize).2.2.length =
        data.length := by
  have hjoin :
      (splitPipeline perm data testSize valSize).1 ++
        (splitPipeline perm data testSize valSize).2.1 ++
        (splitPipeline perm data testSize valSize).2.2 =
      applyIndices data (perm.drop testSize) ++
        applyIndices data (perm.take testSize) := by
    simp only [splitPipeline, trainTestSplitShuffle, trainTestSplitNoShuffle,
      List.take_append_drop]
  have hperm :
      ((splitPipeline perm data testSize valSize).1 ++
        (splitPipeline perm data testSize valSize).2.1 ++
        (splitPipeline perm data testSize valSize).2.2).Perm data := by
    have happ : applyIndices data (perm.drop testSize) ++
        applyIndices data (perm.take testSize) =
        applyIndices data (perm.drop testSize ++ perm.take testSize) := by
      simp [applyIndices]
    rw [hjoin, happ]
    have hdt : (perm.drop testSize ++ perm.take testSize).Perm
        (List.range data.length) :=
      (List.perm_append_comm.trans (by rw [List.take_append_drop])).trans h
    exact applyIndices_perm_of_perm data _ hdt
  refine ⟨hperm, ?_⟩
  have := hperm.length_eq
  simpa [List.length_append, Nat.add_assoc] using this

/-- Witness for `c7_split_partition` with three documents, the
permutation `[1, 0, 2]`, one test document and one validation
document. -/
theorem c7_split_partition_witness :
    ([1, 0, 2] : List ℕ).Perm (List.range ([10, 20, 30] : List ℕ).length) ∧
      ((splitPipeline [1, 0, 2] [10, 20, 30] 1 1).1 ++
          (splitPipeline [1, 0, 2] [10, 20, 30] 1 1).2.1 ++
          (splitPipeline [1, 0, 2] [10, 20, 30] 1 1).2.2).Perm [10, 20, 30] :=
  ⟨by decide,
    (c7_split_partition [1, 0, 2] [10, 20, 30] 1 1 (by decide)).1⟩

/-- C8: the seeded splitter is deterministic — its output is a function
of the seed and the input alone, so two runs with the same seed and
input coincide; the underlying seeded shuffle is a true permutation of
the positions; the test set is drawn by reindexing the input with the
leading `testSize` entries of that seeded permutation; and the
validation set is the contiguous tail slice of the remaining training
data, whose order the second (unshuffled) split preserves. -/
theorem c8_split_deterministic (seed : ℕ) (data : List α)
    (testSize valSize : ℕ) :
    splitPipelineSeeded seed data testSize valSize =
        splitPipelineSeeded seed data testSize valSize ∧
      (seededShuffle seed data.length).Perm (List.range data.length) ∧
      (splitPipelineSeeded seed data testSize valSize).2.2 =
        applyIndices data ((seededShuffle seed data.length).take testSize) ∧
      (splitPipelineSeeded seed data testSize valSize).1 ++
          (splitPipelineSeeded seed data testSize valSize).2.1 =
        applyIndices data ((seededShuffle seed data.length).drop testSize) ∧
      (splitPipelineSeeded seed data testSize valSize).2.1 =
        (applyIndices data ((seededShuffle seed data.length).drop testSize)).drop
          ((applyIndices data
              ((seededShuffle seed data.length).drop testSize)).length -
            valSize) := by
  refine ⟨rfl, seededShuffle_perm seed data.length, rfl, ?_, rfl⟩
  simp only [splitPipelineSeeded, splitPipeline, trainTestSplitShuffle,
    trainTestSplitNoShuffle, List.take_append_drop]

/-! ### Embedding matrix construction (notebook cell 17)

  num_words = min(MAX_NUM_WORDS, len(word_index) + 1)
  embedding_matrix = np.zeros((num_words, embedding_dim))
  n_not_found = 0
  for word, i in word_index.items():
      if i >= MAX_NUM_WORDS:
          continue
      embedding_vector = embeddings_index.get(word)
      if embedding_vector is not None:
          embedding_matrix[i] = embedding_vector
      else:
          n_not_found += 1

The matrix is modelled as a function from row index to row; `word_index`
as an association list of (token, id) pairs (the fitted tokenizer
assigns the distinct ids 1 .. len(word_index)). -/

/-- One iteration of the embedding-matrix loop: skip ids at or beyond
the cap, write the looked-up vector into the token's row when present,
and bump the not-found counter when absent. -/
def embedStep (maxWords : ℕ) (E : List Char → Option (List ℚ))
    (acc : (ℕ → List ℚ) × ℕ) (p : List Char × ℕ) : (ℕ → List ℚ) × ℕ :=
  if maxWords ≤ p.2 then acc
  else
    match E p.1 with
    | some v => (fun j => if j = p.2 then v else acc.1 j, acc.2)
    | none => (acc.1, acc.2 + 1)

/-- The embedding-matrix loop of cell 17: rows start all-zero and the
entries of `word_index` are processed in order; returns the matrix and
the not-found count. -/
def buildEmbeddingMatrix (maxWords dim : ℕ) (E : List Char → Option (List ℚ))
    (entries : List (List Char × ℕ)) : (ℕ → List ℚ) × ℕ :=
  entries.foldl (embedStep maxWords E) (fun _ => List.replicate dim 0, 0)

/-- A row whose id no entry carries is never written. -/
theorem embedFold_untouched (maxWords : ℕ) (E : List Char → Option (List ℚ))
    (entries : List (List Char × ℕ)) (acc : (ℕ → List ℚ) × ℕ) (i : ℕ)
    (h : ∀ p ∈ entries, p.2 ≠ i) :
    (entries.foldl (embedStep maxWords E) acc).1 i = acc.1 i := by
  induction entries generalizing acc with
  | nil => rfl
  | cons p rest ih =>
    have hstep : (embedStep maxWords E acc p).1 i = acc.1 i := by
      have hp := h p (List.mem_cons_self p rest)
      unfold embedStep
      by_cases hskip : maxWords ≤ p.2
      · simp [hskip]
      · cases E p.1 <;> simp [hskip, hp, Ne.symm hp]
    rw [List.foldl_cons, ih _ (fun q hq => h q (List.mem_cons_of_mem p hq)),
      hstep]

/-- With pairwise-distinct ids, the row of an entry below the cap holds
the looked-up vector when the token is present, and is never written
when the token is absent. -/
theorem embedFold_row (maxWords : ℕ) (E : List Char → Option (List ℚ))
    (entries : List (List Char × ℕ)) (acc : (ℕ → List ℚ) × ℕ)
    (w : List Char) (i : ℕ)
    (hnd : (entries.map Prod.snd).Nodup) (hmem : (w, i) ∈ entries) :
    (E w = none →
      (entries.foldl (embedStep maxWords E) acc).1 i = acc.1 i) ∧
    (∀ v, E w = some v → i < maxWords →
      (entries.foldl (embedStep maxWords E) acc).1 i = v) := by
  induction entries generalizing acc with
  | nil => cases hmem
  | cons p rest ih =>
    rw [List.map_cons, List.nodup_cons] at hnd
    rcases List.mem_cons.1 hmem with rfl | hmem'
    · have hrest : ∀ q ∈ rest, q.2 ≠ i := by
        intro q hq hqi
        have hq2 : q.2 ∈ rest.map Prod.snd := List.mem_map_of_mem Prod.snd hq
        rw [hqi] at hq2
        exact hnd.1 hq2
      constructor
      · intro hnone
        rw [List.foldl_cons, embedFold_untouched maxWords E rest _ i hrest]
        unfold embedStep
        by_cases hskip : maxWords ≤ i <;> simp [hskip, hnone]
      · intro v hsome hlt
        rw [List.foldl_cons, embedFold_untouched maxWords E rest _ i hrest]
        unfold embedStep
        simp [Nat.not_le.2 hlt, hsome]
    · have hi : i ∈ rest.map Prod.snd := List.mem_map_of_mem Prod.snd hmem'
      have hpne : p.2 ≠ i := fun hpe => hnd.1 (hpe ▸ hi)
      have hstep : (embedStep maxWords E acc p).1 i = acc.1 i := by
        unfold embedStep
        by_cases hskip : maxWords ≤ p.2
        · simp [hskip]
        · cases E p.1 <;> simp [hskip, hpne, Ne.symm hpne]
      have ihr := ih (embedStep maxWords E acc p) hnd.2 hmem'
      refine ⟨fun hnone => ?_, fun v hsome hlt => ?_⟩
      · rw [List.foldl_cons, ihr.1 hnone, hstep]
      · rw [List.foldl_cons]
        exact ihr.2 v hsome hlt

/-- The counter accumulates exactly the below-cap entries whose token
the embedding table lacks. -/
theorem embedFold_counter (maxWords : ℕ) (E : List Char → Option (List ℚ))
    (entries : List (List Char × ℕ)) (acc : (ℕ → List ℚ) × ℕ) :
    (entries.foldl (embedStep maxWords E) acc).2 =
      acc.2 + entries.countP
        (fun p => decide (p.2 < maxWords) && (E p.1).isNone) := by
  induction entries generalizing acc with
  | nil => simp
  | cons p rest ih =>
    rw [List.foldl_cons, ih, List.countP_cons]
    have hstep : (embedStep maxWords E acc p).2 =
        acc.2 + (if decide (p.2 < maxWords) && (E p.1).isNone then 1 else 0) := by
      unfold embedStep
      by_cases hskip : maxWords ≤ p.2
      · simp [hskip, Nat.not_lt.2 hskip]
      · cases E p.1 <;> simp [hskip, Nat.lt_of_not_le hskip]
    rw [hstep]
    omega

/-- C6: with the ids the fitted tokenizer produces (pairwise distinct,
each at most the vocabulary size), every vocabulary id below
`min(max_vocab, vocab_size + 1)` gets the all-zero row exactly when its
token is absent from the embedding table and the token's own vector
when present, and the not-found counter counts exactly the tokens of
that id range that the table lacks. -/
theorem c6_embedding_matrix (maxWords dim : ℕ)
    (E : List Char → Option (List ℚ)) (entries : List (List Char × ℕ))
    (hnd : (entries.map Prod.snd).Nodup)
    (hle : ∀ p ∈ entries, p.2 ≤ entries.length) :
    (∀ w i, (w, i) ∈ entries → i < min maxWords (entries.length + 1) →
        (E w = none →
          (buildEmbeddingMatrix maxWords dim E entries).1 i =
            List.replicate dim 0) ∧
        ∀ v, E w = some v →
          (buildEmbeddingMatrix maxWords dim E entries).1 i = v) ∧
      (buildEmbeddingMatrix maxWords dim E entries).2 =
        entries.countP
          (fun p => decide (p.2 < min maxWords (entries.length + 1)) &&
            (E p.1).isNone) := by
  constructor
  · intro w i hmem hlt
    have hrow := embedFold_row maxWords E entries
      (fun _ => List.replicate dim 0, 0) w i hnd hmem
    exact ⟨fun hnone => hrow.1 hnone,
      fun v hsome => hrow.2 v hsome (lt_of_lt_of_le hlt (Nat.min_le_left _ _))⟩
  · rw [buildEmbeddingMatrix,
      embedFold_counter maxWords E entries (fun _ => List.replicate dim 0, 0)]
    simp only [Nat.zero_add]
    apply List.countP_congr
    intro p hp
    have := hle p hp
    simp only [Bool.and_eq_true, decide_eq_true_eq]
    constructor
    · rintro ⟨h1, h2⟩
      exact ⟨by omega, h2⟩
    · rintro ⟨h1, h2⟩
      exact ⟨by omega, h2⟩

/-- Witness for `c6_embedding_matrix`: two tokens, `"a"` (id 1,
present with vector `[1, 2]`) and `"b"` (id 2, absent). -/
theorem c6_embedding_matrix_witness :
    (buildEmbeddingMatrix 10 2
        (fun w => if w = ['a'] then some [(1 : ℚ), 2] else none)
        [(['a'], 1), (['b'], 2)]).1 2 = List.replicate 2 0 ∧
      (buildEmbeddingMatrix 10 2
        (fun w => if w = ['a'] then some [(1 : ℚ), 2] else none)
        [(['a'], 1), (['b'], 2)]).1 1 = [(1 : ℚ), 2] := by
  have h := c6_embedding_matrix 10 2
    (fun w => if w = ['a'] then some [(1 : ℚ), 2] else none)
    [(['a'], 1), (['b'], 2)] (by decide) (by decide)
  exact ⟨(h.1 ['b'] 2 (by decide) (by decide)).1 rfl,
    (h.1 ['a'] 1 (by decide) (by decide)).2 [(1 : ℚ), 2] rfl⟩

/-! ### Evaluator (notebook cell 22)

  def evaluate(loader, loss_vector=None, accuracy_vector=None):
      model.eval()
      loss, correct = 0, 0
      pred_vector = torch.LongTensor()
      for data, target in loader:
          output = model(data)
          loss += criterion(output, target).data.item()
          pred = output.data.max(1)[1]
          pred_vector = torch.cat((pred_vector, pred))
          correct += pred.eq(target.data).cpu().sum()
      loss /= len(validation_loader)
      accuracy = 100. * correct / len(loader.dataset)
      return np.array(pred_vector.cpu())

The trained model and the loss criterion are external collaborators and
are abstracted as function parameters; a loader is the list of its
batches, each batch a pair of input rows and target labels; `max(1)[1]`
is an index of a maximal output entry.  Note the divisor of the mean
loss is the batch count of the globally fixed `validation_loader`, not
of the loader being evaluated. -/

/-- Scanning worker for `argmax`: current position, best index so far
and its value. -/
def argmaxAux : List ℚ → ℕ → ℕ → ℚ → ℕ
  | [], _, best, _ => best
  | x :: xs, idx, best, bestVal =>
    if bestVal < x then argmaxAux xs (idx + 1) idx x
    else argmaxAux xs (idx + 1) best bestVal

/-- Index of a maximal entry (the first one) of a row of scores: the
model of `output.data.max(1)[1]` for one example. -/
def argmax : List ℚ → ℕ
  | [] => 0
  | x :: xs => argmaxAux xs 1 0 x

/-- Number of positions at which two equal-length label vectors agree:
the model of `pred.eq(target.data).sum()`. -/
def countMatches (pred target : List ℕ) : ℕ :=
  (pred.zip target).countP (fun q => q.1 == q.2)

/-- The model outputs for one batch. -/
def batchOutput (model : α → List ℚ) (b : List α × List ℕ) :
    List (List ℚ) :=
  b.1.map model

/-- The predicted labels for one batch. -/
def batchPred (model : α → List ℚ) (b : List α × List ℕ) : List ℕ :=
  (batchOutput model b).map argmax

/-- One iteration of the evaluation loop: accumulate the batch loss,
the number of correct predictions, and the predicted labels. -/
def evalStep (model : α → List ℚ) (criterion : List (List ℚ) → List ℕ → ℚ)
    (acc : ℚ × ℕ × List ℕ) (b : List α × List ℕ) : ℚ × ℕ × List ℕ :=
  (acc.1 + criterion (batchOutput model b) b.2,
   acc.2.1 + countMatches (batchPred model b) b.2,
   acc.2.2 ++ batchPred model b)

/-- What `evaluate` reports: the printed mean loss and accuracy, the
accumulated correct count, and the returned prediction vector. -/
structure EvalResult where
  meanLoss : ℚ
  correct : ℕ
  accuracy : ℚ
  predVector : List ℕ
deriving Repr

/-- The `evaluate` function of cell 22, over the abstract trained model
and loss criterion.  `loader` is the loader under evaluation;
`valLoader` is the globally fixed `validation_loader`, whose batch
count divides the accumulated loss. -/
def evaluate (model : α → List ℚ) (criterion : List (List ℚ) → List ℕ → ℚ)
    (loader valLoader : List (List α × List ℕ)) : EvalResult :=
  let r := loader.foldl (evalStep model criterion) (0, 0, [])
  { meanLoss := r.1 / (valLoader.length : ℚ)
    correct := r.2.1
    accuracy := 100 * (r.2.1 : ℚ) / ((loader.map (fun b => b.2.length)).sum : ℚ)
    predVector := r.2.2 }

/-- The evaluation loop accumulates the per-batch losses, match counts
and predictions of every batch, in order. -/
theorem evalFold_eq (model : α → List ℚ)
    (criterion : List (List ℚ) → List ℕ → ℚ)
    (loader : List (List α × List ℕ)) (acc : ℚ × ℕ × List ℕ) :
    loader.foldl (evalStep model criterion) acc =
      (acc.1 + (loader.map (fun b => criterion (batchOutput model b) b.2)).sum,
       acc.2.1 + (loader.map (fun b => countMatches (batchPred model b) b.2)).sum,
       acc.2.2 ++ (loader.map (batchPred model)).flatten) := by
  induction loader generalizing acc with
  | nil => simp
  | cons b rest ih =>
    rw [List.foldl_cons, ih]
    simp [evalStep, add_assoc, List.append_assoc]

/-- C2: the mean loss `evaluate` reports is always the accumulated sum
of the per-batch criterion values divided by the batch count of the
fixed validation loader — for any loader under evaluation, the test
loader included; on a concrete run with two batches of one and two
examples against a four-batch validation loader it equals `sum / 4`,
which differs from the sum divided by the evaluated loader's own batch
count and from the sum divided by its example count. -/
theorem c2_mean_loss_divisor :
    (∀ (α : Type) (model : α → List ℚ)
        (criterion : List (List ℚ) → List ℕ → ℚ)
        (loader valLoader : List (List α × List ℕ)),
        (evaluate model criterion loader valLoader).meanLoss =
          (loader.map (fun b => criterion (batchOutput model b) b.2)).sum /
            (valLoader.length : ℚ)) ∧
      (evaluate (fun _ : ℕ => []) (fun _ _ => 1)
          [([0], [0]), ([0, 1], [0, 0])]
          [([], []), ([], []), ([], []), ([], [])]).meanLoss = 2 / 4 ∧
      (evaluate (fun _ : ℕ => []) (fun _ _ => 1)
          [([0], [0]), ([0, 1], [0, 0])]
          [([], []), ([], []), ([], []), ([], [])]).meanLoss ≠
        2 / (([([0], [0]), ([0, 1], [0, 0])] :
          List (List ℕ × List ℕ)).length : ℚ) ∧
      (evaluate (fun _ : ℕ => []) (fun _ _ => 1)
          [([0], [0]), ([0, 1], [0, 0])]
          [([], []), ([], []), ([], []), ([], [])]).meanLoss ≠
        2 / ((([([0], [0]), ([0, 1], [0, 0])] :
          List (List ℕ × List ℕ)).map (fun b => b.2.length)).sum : ℚ) := by
  have hmain : ∀ (α : Type) (model : α → List ℚ)
      (criterion : List (List ℚ) → List ℕ → ℚ)
      (loader valLoader : List (List α × List ℕ)),
      (evaluate model criterion loader valLoader).meanLoss =
        (loader.map (fun b => criterion (batchOutput model b) b.2)).sum /
          (valLoader.length : ℚ) := by
    intro α model criterion loader valLoader
    rw [evaluate, evalFold_eq]
    simp
  refine ⟨hmain, ?_, ?_, ?_⟩ <;>
    rw [hmain] <;> norm_num

/-! ### Confusion matrix and per-class accuracy (notebook cell 28)

  cm = confusion_matrix(y_test, predictions, labels=list(range(20)))
  cm.diagonal() / cm.sum(axis=1)   # per-class accuracy

`confusion_matrix` with `labels=range(numClasses)` counts, for each
pair of classes `(i, j)`, the evaluation examples whose true label is
`i` and predicted label is `j`. -/

/-- Entry `(i, j)` of the confusion matrix of a true-label vector and a
prediction vector: the number of examples with true class `i` and
predicted class `j`. -/
def confusionMatrix (yTrue yPred : List ℕ) (i j : ℕ) : ℕ :=
  (yTrue.zip yPred).countP (fun q => q.1 == i && q.2 == j)

/-- Row `i` summed over the predicted classes: `cm.sum(axis=1)`. -/
def cmRowSum (numClasses : ℕ) (yTrue yPred : List ℕ) (i : ℕ) : ℕ :=
  ∑ j ∈ Finset.range numClasses, confusionMatrix yTrue yPred i j

/-- Sum of the diagonal of the confusion matrix. -/
def cmDiag (numClasses : ℕ) (yTrue yPred : List ℕ) : ℕ :=
  ∑ i ∈ Finset.range numClasses, confusionMatrix yTrue yPred i i

/-- The printed per-class accuracy: `cm.diagonal() / cm.sum(axis=1)`. -/
def perClassAccuracy (numClasses : ℕ) (yTrue yPred : List ℕ) (i : ℕ) : ℚ :=
  (confusionMatrix yTrue yPred i i : ℚ) / (cmRowSum numClasses yTrue yPred i : ℚ)

/-- Summing the row of a fixed true class over all predicted classes
below `n` counts the pairs with that true class and a predicted class
below `n`. -/
theorem countP_row_bucket (l : List (ℕ × ℕ)) (i n : ℕ) :
    (∑ j ∈ Finset.range n, l.countP (fun q => q.1 == i && q.2 == j)) =
      l.countP (fun q => q.1 == i && decide (q.2 < n)) := by
  induction l with
  | nil => simp
  | cons a t ih =>
    simp only [List.countP_cons, Finset.sum_add_distrib, ih]
    congr 1
    by_cases h1 : a.1 = i
    · subst h1
      by_cases h2 : a.2 < n
      · simp [Finset.sum_ite_eq, Finset.mem_range, h2]
      · simp [Finset.sum_ite_eq, Finset.mem_range, h2]
    · simp [h1]

/-- Summing the diagonal entries over the classes below `n` counts the
pairs whose components agree and lie below `n`. -/
theorem countP_diag_bucket (l : List (ℕ × ℕ)) (n : ℕ) :
    (∑ i ∈ Finset.range n, l.countP (fun q => q.1 == i && q.2 == i)) =
      l.countP (fun q => q.1 == q.2 && decide (q.1 < n)) := by
  induction l with
  | nil => simp
  | cons a t ih =>
    simp only [List.countP_cons, Finset.sum_add_distrib, ih]
    congr 1
    by_cases h0 : a.1 = a.2
    · rw [← h0]
      by_cases h2 : a.1 < n
      · simp [Finset.sum_ite_eq, Finset.mem_range, h2]
      · simp [Finset.sum_ite_eq, Finset.mem_range, h2]
    · rw [Finset.sum_eq_zero, if_neg (by simp [h0])]
      intro j hj
      by_cases h1 : a.1 = j
      · subst h1
        have h2 : a.2 ≠ a.1 := fun he => h0 he.symm
        simp [h2]
      · simp [h1]

/-- Counting pairs by their first component counts occurrences in the
first list, when the second list is at least as long. -/
theorem countP_fst_zip (a b : List ℕ) (i : ℕ) (h : a.length ≤ b.length) :
    (a.zip b).countP (fun q => q.1 == i) = a.count i := by
  have h1 : (a.zip b).countP ((fun x => x == i) ∘ Prod.fst) =
      ((a.zip b).map Prod.fst).countP (fun x => x == i) :=
    (List.countP_map _ _ _).symm
  rw [List.map_fst_zip a b h] at h1
  exact h1

/-- Agreement counting is symmetric in the two label vectors. -/
theorem countP_agree_swap (a b : List ℕ) :
    ((a.zip b).countP fun q => q.1 == q.2) =
      ((b.zip a).countP fun q => q.1 == q.2) := by
  have h1 : ((b.zip a).map Prod.swap).countP (fun q => q.1 == q.2) =
      (b.zip a).countP ((fun q : ℕ × ℕ => q.1 == q.2) ∘ Prod.swap) :=
    List.countP_map _ _ _
  rw [List.zip_swap] at h1
  rw [h1]
  apply List.countP_congr
  intro x _
  simp only [Function.comp_apply, Prod.fst_swap, Prod.snd_swap, beq_iff_eq]
  exact eq_comm

/-- Agreement counting distributes over batch concatenation when the
leading parts have equal lengths. -/
theorem countMatches_append (p1 t1 p2 t2 : List ℕ)
    (h : p1.length = t1.length) :
    countMatches (p1 ++ p2) (t1 ++ t2) =
      countMatches p1 t1 + countMatches p2 t2 := by
  simp [countMatches, List.zip_append h, List.countP_append]

/-- `argmaxAux` never returns a position beyond the scanned range. -/
theorem argmaxAux_lt (xs : List ℚ) (idx best : ℕ) (bv : ℚ)
    (h : best < idx) : argmaxAux xs idx best bv < idx + xs.length := by
  induction xs generalizing idx best bv with
  | nil => simpa [argmaxAux] using h
  | cons x t ih =>
    simp only [argmaxAux]
    by_cases hlt : bv < x
    · rw [if_pos hlt]
      have := ih (idx + 1) idx x (Nat.lt_succ_self idx)
      simpa [Nat.add_assoc, Nat.add_comm 1] using this
    · rw [if_neg hlt]
      have := ih (idx + 1) best bv (Nat.lt_succ_of_lt h)
      simpa [Nat.add_assoc, Nat.add_comm 1] using this

/-- The argmax of a nonempty score row is a valid index into it. -/
theorem argmax_lt_length (l : List ℚ) (h : l ≠ []) :
    argmax l < l.length := by
  cases l with
  | nil => exact absurd rfl h
  | cons x xs =>
    have := argmaxAux_lt xs 1 0 x Nat.one_pos
    simpa [argmax, Nat.add_comm 1] using this

/-- Every predicted label is below the class count when the model
always emits one score per class. -/
theorem batchPred_lt (model : α → List ℚ) (numClasses : ℕ)
    (hnc : 0 < numClasses) (hmodel : ∀ x, (model x).length = numClasses)
    (b : List α × List ℕ) : ∀ p ∈ batchPred model b, p < numClasses := by
  intro p hp
  rcases List.mem_map.1 hp with ⟨out, hout, rfl⟩
  rcases List.mem_map.1 hout with ⟨x, _, rfl⟩
  by_cases hnil : model x = []
  · simpa [hnil, argmax] using hnc
  · have := argmax_lt_length (model x) hnil
    rw [hmodel x] at this
    exact this

/-- The prediction vector `evaluate` returns is the concatenation of
the per-batch argmax predictions, in order. -/
theorem evaluate_predVector (model : α → List ℚ)
    (criterion : List (List ℚ) → List ℕ → ℚ)
    (loader valLoader : List (List α × List ℕ)) :
    (evaluate model criterion loader valLoader).predVector =
      (loader.map (batchPred model)).flatten := by
  rw [evaluate, evalFold_eq]
  rfl

/-- The correct count `evaluate` reports accumulates the per-batch
agreement counts. -/
theorem evaluate_correct (model : α → List ℚ)
    (criterion : List (List ℚ) → List ℕ → ℚ)
    (loader valLoader : List (List α × List ℕ)) :
    (evaluate model criterion loader valLoader).correct =
      (loader.map (fun b => countMatches (batchPred model b) b.2)).sum := by
  rw [evaluate, evalFold_eq]
  simp

/-- Per-batch predictions have one entry per example. -/
theorem batchPred_length (model : α → List ℚ) (b : List α × List ℕ) :
    (batchPred model b).length = b.1.length := by
  simp [batchPred, batchOutput]

/-- Agreement over the whole evaluated set is the sum of per-batch
agreements, when every batch pairs inputs and targets one-to-one. -/
theorem countMatches_flatten (model : α → List ℚ)
    (loader : List (List α × List ℕ))
    (hbatch : ∀ b ∈ loader, b.1.length = b.2.length) :
    countMatches ((loader.map (batchPred model)).flatten)
        ((loader.map Prod.snd).flatten) =
      (loader.map (fun b => countMatches (batchPred model b) b.2)).sum := by
  induction loader with
  | nil => rfl
  | cons b rest ih =>
    have hlen : (batchPred model b).length = b.2.length := by
      rw [batchPred_length, hbatch b (List.mem_cons_self b rest)]
    simp only [List.map_cons, List.flatten_cons, List.sum_cons]
    rw [countMatches_append _ _ _ _ hlen,
      ih (fun q hq => hbatch q (List.mem_cons_of_mem b hq))]

/-- The whole prediction vector and the whole true-label vector have
equally many entries when every batch pairs inputs and targets
one-to-one. -/
theorem predAll_length (model : α → List ℚ)
    (loader : List (List α × List ℕ))
    (hbatch : ∀ b ∈ loader, b.1.length = b.2.length) :
    ((loader.map (batchPred model)).flatten).length =
      ((loader.map Prod.snd).flatten).length := by
  induction loader with
  | nil => rfl
  | cons b rest ih =>
    simp only [List.map_cons, List.flatten_cons, List.length_append,
      batchPred_length, hbatch b (List.mem_cons_self b rest),
      ih (fun q hq => hbatch q (List.mem_cons_of_mem b hq))]

/-- C9: over any evaluated loader whose targets are valid class labels
and whose model emits one score per class, each row sum of the
confusion matrix built from the evaluator's prediction vector equals
the number of true instances of that class, the diagonal sum equals the
correct count the evaluator reports, and the printed per-class accuracy
is the diagonal entry divided by the row sum. -/
theorem c9_confusion_matrix {α : Type} (model : α → List ℚ)
    (criterion : List (List ℚ) → List ℕ → ℚ)
    (loader valLoader : List (List α × List ℕ)) (numClasses : ℕ)
    (hnc : 0 < numClasses)
    (hmodel : ∀ x, (model x).length = numClasses)
    (hbatch : ∀ b ∈ loader, b.1.length = b.2.length)
    (htarget : ∀ b ∈ loader, ∀ t ∈ b.2, t < numClasses) :
    (∀ i, i < numClasses →
        cmRowSum numClasses ((loader.map Prod.snd).flatten)
            ((evaluate model criterion loader valLoader).predVector) i =
          ((loader.map Prod.snd).flatten).count i) ∧
      cmDiag numClasses ((loader.map Prod.snd).flatten)
          ((evaluate model criterion loader valLoader).predVector) =
        (evaluate model criterion loader valLoader).correct ∧
      ∀ i, perClassAccuracy numClasses ((loader.map Prod.snd).flatten)
          ((evaluate model criterion loader valLoader).predVector) i =
        (confusionMatrix ((loader.map Prod.snd).flatten)
            ((evaluate model criterion loader valLoader).predVector) i i : ℚ) /
          (cmRowSum numClasses ((loader.map Prod.snd).flatten)
            ((evaluate model criterion loader valLoader).predVector) i : ℚ) := by
  have hpv := evaluate_predVector model criterion loader valLoader
  have hco := evaluate_correct model criterion loader valLoader
  rw [hpv, hco]
  have hplt : ∀ p ∈ (loader.map (batchPred model)).flatten, p < numClasses := by
    intro p hp
    rcases List.mem_flatten.1 hp with ⟨l, hl, hpl⟩
    rcases List.mem_map.1 hl with ⟨b, _, rfl⟩
    exact batchPred_lt model numClasses hnc hmodel b p hpl
  have htlt : ∀ t ∈ (loader.map Prod.snd).flatten, t < numClasses := by
    intro t ht
    rcases List.mem_flatten.1 ht with ⟨l, hl, htl⟩
    rcases List.mem_map.1 hl with ⟨b, hb, rfl⟩
    exact htarget b hb t htl
  have hlen : ((loader.map Prod.snd).flatten).length ≤
      ((loader.map (batchPred model)).flatten).length :=
    le_of_eq (predAll_length model loader hbatch).symm
  refine ⟨?_, ?_, fun i => rfl⟩
  · intro i _
    simp only [cmRowSum, confusionMatrix]
    rw [countP_row_bucket]
    have hcongr : (((loader.map Prod.snd).flatten).zip
          ((loader.map (batchPred model)).flatten)).countP
          (fun q => q.1 == i && decide (q.2 < numClasses)) =
        (((loader.map Prod.snd).flatten).zip
          ((loader.map (batchPred model)).flatten)).countP
          (fun q => q.1 == i) := by
      apply List.countP_congr
      intro x hx
      have hx2 : x.2 < numClasses := hplt x.2 (List.of_mem_zip hx).2
      simp [hx2]
    rw [hcongr]
    exact countP_fst_zip _ _ i hlen
  · simp only [cmDiag, confusionMatrix]
    rw [countP_diag_bucket]
    have hcongr : (((loader.map Prod.snd).flatten).zip
          ((loader.map (batchPred model)).flatten)).countP
          (fun q => q.1 == q.2 && decide (q.1 < numClasses)) =
        (((loader.map Prod.snd).flatten).zip
          ((loader.map (batchPred model)).flatten)).countP
          (fun q => q.1 == q.2) := by
      apply List.countP_congr
      intro x hx
      have hx1 : x.1 < numClasses := htlt x.1 (List.of_mem_zip hx).1
      simp [hx1]
    rw [hcongr, ← countMatches_flatten model loader hbatch]
    exact countP_agree_swap _ _

/-- Witness for `c9_confusion_matrix`: a two-class model that labels
input 0 as class 0 and everything else as class 1, evaluated on a
single batch of two correctly labelled examples. -/
theorem c9_confusion_matrix_witness :
    (0 < 2) ∧
      cmDiag 2 ((([([0, 1], [0, 1])] : List (List ℕ × List ℕ)).map
          Prod.snd).flatten)
          ((evaluate (fun x : ℕ => [if x = 0 then (1 : ℚ) else 0,
              if x = 0 then 0 else 1]) (fun _ _ => 0)
            [([0, 1], [0, 1])] []).predVector) =
        (evaluate (fun x : ℕ => [if x = 0 then (1 : ℚ) else 0,
            if x = 0 then 0 else 1]) (fun _ _ => 0)
          [([0, 1], [0, 1])] []).correct := by
  refine ⟨by decide, ?_⟩
  exact (c9_confusion_matrix
    (fun x : ℕ => [if x = 0 then (1 : ℚ) else 0, if x = 0 then 0 else 1])
    (fun _ _ => 0) [([0, 1], [0, 1])] [] 2 (by decide)
    (fun x => rfl) (by decide) (by decide)).2.1

end NG20
